import Mathlib

/-!
Verification of the incremental chunk-ingestion pipeline of
`src/utils/helpers/get_population_func.py`.

The Python functions `calc_chunk_ids`, `load_existing_chunks_metadata`,
`filter_chunks`, `process_in_batches` and `save_processed_chunks_metadata`
are shallowly embedded as pure Lean functions.  External collaborators
(the tokenizer `num_tokens`, the JSON codec, the ingestion function) are
taken as function parameters; exceptions raised by a collaborator are
modelled with `Option` (`none` = the call raised).  The filesystem is
modelled as the optional list of lines of the sidecar file
(`none` = the file does not exist).
-/

set_option autoImplicit false

namespace RagDemo

/-- A LangChain `Document`: text content plus a string-keyed metadata
mapping.  The metadata dict is embedded as an association list whose keys
are unique (Python dict); values that matter to the pipeline (`source`,
`page`, `chunk_id`) are rendered as the strings Python's f-strings would
produce. -/
structure Chunk where
  page_content : String
  metadata : List (String × String)
  deriving Repr, DecidableEq

/-- One record of the JSON-Lines sidecar file:
`{"content": ..., "metadata": {...}}`. -/
structure SidecarRecord where
  content : String
  metadata : List (String × String)
  deriving Repr, DecidableEq

/-- Python `d.get(k)` on a string-keyed dict represented as an
association list: the value at the first entry whose key is `k`. -/
def lookupKey : List (String × String) → String → Option String
  | [], _ => none
  | p :: ps, k => if p.1 == k then some p.2 else lookupKey ps k

/-- Python `chunk.metadata.get(k)`. -/
def Chunk.getMeta (c : Chunk) (k : String) : Option String :=
  lookupKey c.metadata k

/-- Python dict assignment `d[k] = v`: overwrite the entry at key `k`
when present (dict keys are unique, so the first match is the entry),
append a new entry otherwise. -/
def setKey : List (String × String) → String → String → List (String × String)
  | [], k, v => [(k, v)]
  | p :: ps, k, v => if p.1 == k then (k, v) :: ps else p :: setKey ps k v

/-- Python `chunk.metadata[k] = v`. -/
def Chunk.setMeta (c : Chunk) (k v : String) : Chunk :=
  { c with metadata := setKey c.metadata k v }

theorem lookupKey_setKey_same (l : List (String × String)) (k v : String) :
    lookupKey (setKey l k v) k = some v := by
  induction l with
  | nil => simp [setKey, lookupKey]
  | cons p ps ih =>
    by_cases h : p.1 == k
    · simp [setKey, lookupKey, h]
    · simp [setKey, lookupKey, h, ih]

theorem lookupKey_setKey_other (l : List (String × String)) (k k' v : String)
    (hne : k' ≠ k) : lookupKey (setKey l k v) k' = lookupKey l k' := by
  have hkk' : (k == k') = false := by
    simp only [beq_eq_false_iff_ne, ne_eq]
    exact fun hc => hne hc.symm
  induction l with
  | nil => simp [setKey, lookupKey, hkk']
  | cons p ps ih =>
    by_cases h : p.1 == k
    · have hp : (p.1 == k') = false := by
        simp only [beq_iff_eq] at h
        simp only [beq_eq_false_iff_ne, ne_eq, h]
        exact fun hc => hne hc.symm
      simp [setKey, lookupKey, h, hp, hkk']
    · simp [setKey, lookupKey, h, ih]

theorem getMeta_setMeta_same (c : Chunk) (k v : String) :
    (c.setMeta k v).getMeta k = some v :=
  lookupKey_setKey_same c.metadata k v

theorem getMeta_setMeta_other (c : Chunk) (k k' v : String) (hne : k' ≠ k) :
    (c.setMeta k v).getMeta k' = c.getMeta k' :=
  lookupKey_setKey_other c.metadata k k' v hne

theorem page_content_setMeta (c : Chunk) (k v : String) :
    (c.setMeta k v).page_content = c.page_content := rfl

/-!
Model of the path normalization performed by `calc_chunk_ids`:

    norm_source = os.path.normpath(source)
    rel_source  = os.path.relpath(norm_source, base_data_path).replace("\\", "/")

`os.path` is a Python-stdlib collaborator, modelled here lexically.  On
POSIX the only separator is `/` and a backslash is an ordinary filename
character; on Windows both `/` and `\` separate components.  `relpath`
makes both arguments absolute against the same working directory and
compares component lists, so for inputs free of `..` components (and, on
Windows, without drive letters) it reduces to: split both paths into
components, drop empty and `.` components, strip the longest common
prefix, and prepend one `..` per remaining component of the start path.
The model covers exactly that fragment.
-/

/-- Groups of characters between separators.  `splitComps isSep cs`
always returns at least one (possibly empty) group. -/
def splitComps (isSep : Char → Bool) : List Char → List (List Char)
  | [] => [[]]
  | c :: cs =>
    match splitComps isSep cs with
    | [] => [[]]
    | g :: gs => if isSep c then [] :: g :: gs else (c :: g) :: gs

/-- Separator test: on Windows both `/` and `\` separate path
components, on POSIX only `/` does. -/
def sepChar (isWindows : Bool) (c : Char) : Bool :=
  if isWindows then c == '/' || c == '\\' else c == '/'

/-- Path components of a path string: split at separators, dropping
empty components (collapsed or trailing separators) and `.` components,
as `normpath`/`relpath` do. -/
def pathComponents (isWindows : Bool) (s : String) : List String :=
  ((splitComps (sepChar isWindows) s.data).map (fun g => String.mk g)).filter
    (fun t => t != "" && t != ".")

/-- Strip the longest common prefix of two component lists. -/
def dropCommon : List String → List String → List String × List String
  | a :: as, b :: bs =>
    if a = b then dropCommon as bs else (a :: as, b :: bs)
  | as, bs => (as, bs)

/-- `os.path.relpath` on component lists: one `..` per remaining start
component, then the remaining path components. -/
def relComps (path start : List String) : List String :=
  let r := dropCommon path start
  r.2.map (fun _ => "..") ++ r.1

/-- `s.replace("\\", "/")` for the one-character pattern: replace every
backslash character by a forward slash. -/
def replaceBackslash (s : String) : String :=
  String.mk (s.data.map (fun c => if c == '\\' then '/' else c))

/-- The relative-path computation of `calc_chunk_ids`:
`os.path.relpath(os.path.normpath(source), base).replace("\\", "/")`.
An empty relative component list renders as `.` (Python's `curdir`).
On Windows `relpath` joins with `\`, which the trailing `replace` turns
into `/`; joining with `/` directly and then applying the same
character replacement yields the identical string, since components
contain no separator characters. -/
def norm_rel_source (isWindows : Bool) (source base : String) : String :=
  let r := relComps (pathComponents isWindows source) (pathComponents isWindows base)
  replaceBackslash (if r.isEmpty then "." else String.intercalate "/" r)

/-- The `page_id` computed for one chunk:
`f"{rel_source}:{page}"`.  A missing `page` renders as Python's `None`.
Only used when `source` is present (a missing `source` raises inside
`os.path.normpath` instead). -/
def pageIdOf (isWindows : Bool) (base : String) (c : Chunk) : String :=
  norm_rel_source isWindows ((c.getMeta "source").getD "") base ++ ":" ++
    ((c.getMeta "page").getD "None")

/-- Loop body of `calc_chunk_ids`, threading `last_page_id` and
`curr_chunk_idx` through the chunk list.  A chunk whose metadata lacks
`source` makes `os.path.normpath(None)` raise `TypeError`; the
surrounding `try` then returns the (in-place mutated) list, so the
remaining chunks are returned untouched. -/
def calc_chunk_ids_go (isWindows : Bool) (base : String) :
    Option String → Nat → List Chunk → List Chunk
  | _, _, [] => []
  | lastPageId, currChunkIdx, c :: rest =>
    match c.getMeta "source" with
    | none => c :: rest
    | some _ =>
      let currPageId := pageIdOf isWindows base c
      let idx := if some currPageId = lastPageId then currChunkIdx + 1 else 0
      let chunkId := currPageId ++ ":" ++ toString idx
      c.setMeta "chunk_id" chunkId ::
        calc_chunk_ids_go isWindows base (some currPageId) idx rest

/-- `calc_chunk_ids(chunks, base_data_path, logger)`:
`last_page_id = None`, `curr_chunk_idx = 0`, then the loop. -/
def calc_chunk_ids (isWindows : Bool) (base : String) (chunks : List Chunk) :
    List Chunk :=
  calc_chunk_ids_go isWindows base none 0 chunks

/-- The index sequence described by the spec for a sequence of page ids:
starts at 0, increments by 1 when the page id repeats the previous one,
resets to 0 when it changes. -/
def idxSeq : Option String → Nat → List String → List Nat
  | _, _, [] => []
  | last, curr, p :: ps =>
    let i := if some p = last then curr + 1 else 0
    i :: idxSeq (some p) i ps

theorem calc_chunk_ids_go_chunk_ids (isWindows : Bool) (base : String) :
    ∀ (cs : List Chunk) (last : Option String) (curr : Nat),
    (∀ c ∈ cs, (c.getMeta "source").isSome) →
    (calc_chunk_ids_go isWindows base last curr cs).map (fun c => c.getMeta "chunk_id") =
      List.zipWith (fun p i => some (p ++ ":" ++ toString i))
        (cs.map (pageIdOf isWindows base))
        (idxSeq last curr (cs.map (pageIdOf isWindows base))) := by
  intro cs
  induction cs with
  | nil => intro last curr _; rfl
  | cons c rest ih =>
    intro last curr hsrc
    have hc : (c.getMeta "source").isSome := hsrc c (List.mem_cons_self c rest)
    obtain ⟨s, hs⟩ := Option.isSome_iff_exists.mp hc
    simp only [calc_chunk_ids_go, hs, List.map_cons, idxSeq, List.zipWith_cons_cons]
    rw [getMeta_setMeta_same c "chunk_id" _,
      ih (some (pageIdOf isWindows base c)) _
        (fun d hd => hsrc d (List.mem_cons_of_mem c hd))]

/-- Python `str.strip()`: remove whitespace characters from both ends.
(Python strips a slightly wider Unicode whitespace set; the difference
is irrelevant to every property stated here.) -/
def pyStrip (s : String) : String :=
  String.mk (((s.data.dropWhile Char.isWhitespace).reverse.dropWhile
    Char.isWhitespace).reverse)

/-!
`filter_chunks(chunks, lower_limit, upper_limit, logger)`.  The external
tokenizer `num_tokens` is a parameter of type `String → Option Int`
(`none` = the call raised).  The loop body evaluates
`num_tokens(chunk.page_content.strip())` and keeps the chunk when
`lower_limit < token_len < upper_limit`; the first raising call aborts
the loop and the surrounding `except` returns the original list.
-/

/-- The `for` loop of `filter_chunks`: `none` when some tokenizer call
raised, otherwise the kept chunks. -/
def filter_chunks_run (numTokens : String → Option Int) (lowerLimit upperLimit : Int) :
    List Chunk → Option (List Chunk)
  | [] => some []
  | c :: rest =>
    match numTokens (pyStrip c.page_content) with
    | none => none
    | some tokenLen =>
      match filter_chunks_run numTokens lowerLimit upperLimit rest with
      | none => none
      | some kept =>
        some (if lowerLimit < tokenLen ∧ tokenLen < upperLimit then c :: kept else kept)

/-- `filter_chunks`: the loop result, or the unfiltered input when the
loop raised (the `except` branch returns `chunks`). -/
def filter_chunks (numTokens : String → Option Int) (lowerLimit upperLimit : Int)
    (chunks : List Chunk) : List Chunk :=
  (filter_chunks_run numTokens lowerLimit upperLimit chunks).getD chunks

/-!
`process_in_batches(documents, ingest_batch_size, ingest_fn, logger)`.
The ingestion collaborator is a parameter `ingest : List Chunk → Bool`
(`false` = the call raised; the `except` inside the loop body catches it
and the loop continues).  The observable behaviour is the trace of
attempted calls: for each `i in range(0, total, ingest_batch_size)` the
pair of the logged batch index `i // ingest_batch_size` and the outcome
of `ingest_fn(documents[i : i + ingest_batch_size])`.
`len(range(0, total, b))` is `(total + b - 1) / b` for `b > 0`.
-/
def process_in_batches (documents : List Chunk) (ingestBatchSize : Nat)
    (ingest : List Chunk → Bool) : List (Nat × Bool) :=
  (List.range' 0 ((documents.length + ingestBatchSize - 1) / ingestBatchSize)
      ingestBatchSize).map
    (fun i => (i / ingestBatchSize,
      ingest ((documents.drop i).take ingestBatchSize)))

/-- Specification-side batching: the contiguous batches of size `b` of a
list, in order, the last one possibly shorter.  (For `b = 0` no batching
is defined; `process_in_batches` is only claimed for positive `b`.) -/
def specBatches {α : Type} : Nat → List α → List (List α)
  | _, [] => []
  | 0, _ :: _ => []
  | b + 1, x :: xs => (x :: xs).take (b + 1) :: specBatches (b + 1) (xs.drop b)
termination_by _ l => l.length
decreasing_by
  simp only [List.length_drop, List.length_cons]
  omega

/-!
The sidecar-file ledger.  `json.loads` and `json.dumps` are external
collaborators: `parse : String → Option SidecarRecord` (`none` =
`json.JSONDecodeError`) and `dump : SidecarRecord → String`.  A file is
`Option (List String)`: `none` when `os.path.exists` is false, otherwise
its list of lines.
-/

/-- A Python `set` of strings, modelled as the list of its elements in
insertion order; membership is the only observable any claim uses. -/
def insertNew (acc : List String) (cid : String) : List String :=
  if cid ∈ acc then acc else acc ++ [cid]

/-- One iteration of the ledger-scan loop: parse the stripped line; on
success take `chunk_data.get("metadata", {}).get("chunk_id")` and add it
to the set when it is truthy (a present, non-empty string); on
`JSONDecodeError` continue with the set unchanged. -/
def scanStep (parse : String → Option SidecarRecord) (acc : List String)
    (line : String) : List String :=
  match parse (pyStrip line) with
  | none => acc
  | some r =>
    match lookupKey r.metadata "chunk_id" with
    | none => acc
    | some cid => if cid = "" then acc else insertNew acc cid

/-- The ledger-scan loop over all lines of the file, starting from the
empty set. -/
def scanLedger (parse : String → Option SidecarRecord) (lines : List String) :
    List String :=
  List.foldl (scanStep parse) [] lines

/-- `load_existing_chunks_metadata(chunks_dir, logger)`: empty set when
the file does not exist, otherwise the ledger scan of its lines. -/
def load_existing_chunks_metadata (parse : String → Option SidecarRecord)
    (file : Option (List String)) : List String :=
  match file with
  | none => []
  | some lines => scanLedger parse lines

/-- The sidecar record written for a chunk:
`{"content": chunk.page_content, "metadata": chunk.metadata}`. -/
def toRecord (c : Chunk) : SidecarRecord :=
  ⟨c.page_content, c.metadata⟩

/-- The append loop of `save_processed_chunks_metadata`: write
`json.dumps(chunk_data)` as one further line per chunk, in order. -/
def appendRecords (dump : SidecarRecord → String) :
    List Chunk → List String → List String
  | [], ls => ls
  | c :: cs, ls => appendRecords dump cs (ls ++ [dump (toRecord c)])

/-- `save_processed_chunks_metadata(chunks, chunks_dir, logger)`.  Phase
1 reads the existing lines into `existing_data` (a value the source
never uses).  Phase 2 opens the file in append mode — creating it (and
its parent directory) when absent, hence `file.getD []` — and appends
one record per chunk.  Phase 3 re-reads the whole file and rebuilds the
ledger set, which is returned.  The result models the pair (final file
contents, returned ledger set). -/
def save_processed_chunks_metadata (dump : SidecarRecord → String)
    (parse : String → Option SidecarRecord) (chunks : List Chunk)
    (file : Option (List String)) : List String × List String :=
  let newLines := appendRecords dump chunks (file.getD [])
  (newLines, scanLedger parse newLines)

/-- Whether the ledger scan of one file line contributes the chunk id
`cid`: the stripped line parses, its metadata holds `chunk_id = cid`,
and `cid` is truthy. -/
def lineYields (parse : String → Option SidecarRecord) (line cid : String) : Bool :=
  match parse (pyStrip line) with
  | none => false
  | some r =>
    match lookupKey r.metadata "chunk_id" with
    | none => false
    | some c => c == cid && cid != ""

/-! Supporting lemmas. -/

/-- The character replacement of `replaceBackslash`. -/
def replChar (c : Char) : Char :=
  if c == '\\' then '/' else c

theorem replaceBackslash_data (s : String) :
    (replaceBackslash s).data = s.data.map replChar := rfl

theorem sepChar_replChar (c : Char) :
    sepChar true (replChar c) = sepChar true c := by
  unfold sepChar replChar
  by_cases h : c == '\\'
  · simp only [beq_iff_eq] at h
    subst h
    rfl
  · simp [h]

theorem replChar_of_not_sep (c : Char) (h : sepChar true c = false) :
    replChar c = c := by
  unfold sepChar at h
  unfold replChar
  simp only [if_true, Bool.or_eq_false_iff] at h
  simp [h.2]

theorem splitComps_map_replChar :
    ∀ cs : List Char,
      splitComps (sepChar true) (cs.map replChar) = splitComps (sepChar true) cs := by
  intro cs
  induction cs with
  | nil => rfl
  | cons c cs ih =>
    simp only [List.map_cons, splitComps, ih]
    by_cases h : sepChar true c
    · rw [sepChar_replChar, h]
      cases splitComps (sepChar true) cs <;> simp
    · rw [sepChar_replChar, replChar_of_not_sep c (Bool.not_eq_true _ ▸ eq_false_of_ne_true h)]

theorem pathComponents_windows_replace (s : String) :
    pathComponents true (replaceBackslash s) = pathComponents true s := by
  unfold pathComponents
  rw [replaceBackslash_data, splitComps_map_replChar]

theorem norm_rel_source_windows_replace (s base : String) :
    norm_rel_source true (replaceBackslash s) base = norm_rel_source true s base := by
  unfold norm_rel_source
  rw [pathComponents_windows_replace]

/-- The frame relation of the chunk-identifier stage: an output chunk
keeps the input chunk's text content and every metadata entry other
than `chunk_id`. -/
def chunkFrame (c d : Chunk) : Prop :=
  d.page_content = c.page_content ∧
    ∀ k, k ≠ "chunk_id" → d.getMeta k = c.getMeta k

theorem forall₂_chunkFrame_refl : ∀ l : List Chunk, List.Forall₂ chunkFrame l l := by
  intro l
  induction l with
  | nil => exact List.Forall₂.nil
  | cons c cs ih => exact List.Forall₂.cons ⟨rfl, fun _ _ => rfl⟩ ih

theorem calc_chunk_ids_go_frame (isWindows : Bool) (base : String) :
    ∀ (cs : List Chunk) (last : Option String) (curr : Nat),
      List.Forall₂ chunkFrame cs (calc_chunk_ids_go isWindows base last curr cs) := by
  intro cs
  induction cs with
  | nil => intro _ _; exact List.Forall₂.nil
  | cons c rest ih =>
    intro last curr
    unfold calc_chunk_ids_go
    cases hs : c.getMeta "source" with
    | none => exact forall₂_chunkFrame_refl (c :: rest)
    | some s =>
      exact List.Forall₂.cons
        ⟨page_content_setMeta c "chunk_id" _,
         fun k hk => getMeta_setMeta_other c "chunk_id" k _ hk⟩
        (ih _ _)

theorem sources_isSome_of_agree {cs1 cs2 : List Chunk}
    (h : List.Forall₂
      (fun c d => c.getMeta "source" = d.getMeta "source" ∧
        c.getMeta "page" = d.getMeta "page") cs1 cs2)
    (h1 : ∀ c ∈ cs1, (c.getMeta "source").isSome) :
    ∀ d ∈ cs2, (d.getMeta "source").isSome := by
  induction h with
  | nil => intro d hd; cases hd
  | cons hcd _ ih =>
    intro d hd
    rcases List.mem_cons.mp hd with rfl | hd'
    · rw [← hcd.1]
      exact h1 _ (List.mem_cons_self _ _)
    · exact ih (fun c hc => h1 c (List.mem_cons_of_mem _ hc)) d hd'

theorem map_pageIdOf_of_agree (isWindows : Bool) (base : String)
    {cs1 cs2 : List Chunk}
    (h : List.Forall₂
      (fun c d => c.getMeta "source" = d.getMeta "source" ∧
        c.getMeta "page" = d.getMeta "page") cs1 cs2) :
    cs1.map (pageIdOf isWindows base) = cs2.map (pageIdOf isWindows base) := by
  induction h with
  | nil => rfl
  | cons hcd _ ih =>
    simp only [List.map_cons, ih]
    unfold pageIdOf
    rw [hcd.1, hcd.2]

theorem filter_chunks_run_total (numTokens : String → Int) (lowerLimit upperLimit : Int) :
    ∀ chunks : List Chunk,
      filter_chunks_run (fun s => some (numTokens s)) lowerLimit upperLimit chunks =
        some (chunks.filter (fun c =>
          decide (lowerLimit < numTokens (pyStrip c.page_content) ∧
            numTokens (pyStrip c.page_content) < upperLimit))) := by
  intro chunks
  induction chunks with
  | nil => rfl
  | cons c rest ih =>
    simp only [filter_chunks_run, ih, List.filter_cons]
    by_cases h : lowerLimit < numTokens (pyStrip c.page_content) ∧
        numTokens (pyStrip c.page_content) < upperLimit
    · simp [h]
    · simp [h]

theorem filter_chunks_run_none (numTokens : String → Option Int)
    (lowerLimit upperLimit : Int) :
    ∀ chunks : List Chunk,
      (∃ c ∈ chunks, numTokens (pyStrip c.page_content) = none) →
      filter_chunks_run numTokens lowerLimit upperLimit chunks = none := by
  intro chunks
  induction chunks with
  | nil => rintro ⟨c, hc, _⟩; cases hc
  | cons c rest ih =>
    rintro ⟨d, hd, hnone⟩
    rcases List.mem_cons.mp hd with rfl | hd'
    · simp [filter_chunks_run, hnone]
    · simp only [filter_chunks_run]
      cases numTokens (pyStrip c.page_content) with
      | none => rfl
      | some t => rw [ih ⟨d, hd', hnone⟩]

theorem filter_chunks_run_sublist (numTokens : String → Option Int)
    (lowerLimit upperLimit : Int) :
    ∀ (chunks kept : List Chunk),
      filter_chunks_run numTokens lowerLimit upperLimit chunks = some kept →
      kept.Sublist chunks := by
  intro chunks
  induction chunks with
  | nil =>
    intro kept h
    simp only [filter_chunks_run, Option.some_inj] at h
    rw [← h]
  | cons c rest ih =>
    intro kept h
    simp only [filter_chunks_run] at h
    cases hnt : numTokens (pyStrip c.page_content) with
    | none => rw [hnt] at h; cases h
    | some t =>
      rw [hnt] at h
      cases hrest : filter_chunks_run numTokens lowerLimit upperLimit rest with
      | none => rw [hrest] at h; cases h
      | some f =>
        rw [hrest] at h
        simp only [Option.some_inj] at h
        by_cases hcond : lowerLimit < t ∧ t < upperLimit
        · rw [if_pos hcond] at h
          rw [← h]
          exact List.Sublist.cons₂ c (ih f hrest)
        · rw [if_neg hcond] at h
          rw [← h]
          exact List.Sublist.cons c (ih f hrest)

/-! Arithmetic of Python's `len(range(0, total, b))`. -/

theorem ceil_div_step (m b : Nat) (hb : 0 < b) (hm : 0 < m) :
    (m + b - 1) / b = (m - b + b - 1) / b + 1 := by
  rcases le_or_lt m b with h | h
  · have h3 : m + b - 1 = (m - 1) + b := by omega
    have h4 : m - b + b - 1 = b - 1 := by omega
    rw [h3, h4, Nat.add_div_right _ hb, Nat.div_eq_of_lt (show m - 1 < b by omega),
      Nat.div_eq_of_lt (show b - 1 < b by omega)]
  · have h3 : m + b - 1 = (m - b + b - 1) + b := by omega
    rw [h3, Nat.add_div_right _ hb]

theorem specBatches_succ {α : Type} (b : Nat) (x : α) (xs : List α) :
    specBatches (b + 1) (x :: xs) =
      (x :: xs).take (b + 1) :: specBatches (b + 1) (xs.drop b) := by
  simp [specBatches]

theorem specBatches_nil {α : Type} (b : Nat) :
    specBatches b ([] : List α) = [] := by
  simp [specBatches]

theorem specBatches_cons {α : Type} (b : Nat) (hb : 0 < b) (x : α) (xs : List α) :
    specBatches b (x :: xs) =
      (x :: xs).take b :: specBatches b (xs.drop (b - 1)) := by
  obtain ⟨c, rfl⟩ : ∃ c, b = c + 1 := ⟨b - 1, by omega⟩
  simp [specBatches]

theorem process_in_batches_go (ingestBatchSize : Nat) (hb : 0 < ingestBatchSize)
    (ingest : List Chunk → Bool) (documents : List Chunk) :
    ∀ (n s : Nat), documents.length - s = n → s % ingestBatchSize = 0 →
      (List.range' s ((documents.length - s + ingestBatchSize - 1) / ingestBatchSize)
          ingestBatchSize).map
        (fun i => (i / ingestBatchSize,
          ingest ((documents.drop i).take ingestBatchSize))) =
      ((specBatches ingestBatchSize (documents.drop s)).enumFrom
          (s / ingestBatchSize)).map (fun p => (p.1, ingest p.2)) := by
  intro n
  induction n using Nat.strong_induction_on with
  | _ n ih =>
    intro s hn hmod
    rcases le_or_lt documents.length s with hle | hlt
    · have hdrop : documents.drop s = [] := List.drop_eq_nil_of_le hle
      have hcount : documents.length - s = 0 := by omega
      have hnil : specBatches ingestBatchSize ([] : List Chunk) = [] := by
        simp [specBatches]
      rw [hdrop, hcount, Nat.div_eq_of_lt (show 0 + ingestBatchSize - 1 < ingestBatchSize by omega), hnil]
      rfl
    · have hm : 0 < documents.length - s := by omega
      obtain ⟨d, rest, hdrop⟩ : ∃ d rest, documents.drop s = d :: rest := by
        cases hd : documents.drop s with
        | nil =>
          exfalso
          have := List.drop_eq_nil_iff.mp hd
          omega
        | cons d rest => exact ⟨d, rest, rfl⟩
      have hrange : ∀ (a k st : Nat),
          List.range' a (k + 1) st = a :: List.range' (a + st) k st :=
        fun _ _ _ => rfl
      have henum : ∀ (j : Nat) (x : List Chunk) (xs : List (List Chunk)),
          List.enumFrom j (x :: xs) = (j, x) :: List.enumFrom (j + 1) xs :=
        fun _ _ _ => rfl
      have hdropb : rest.drop (ingestBatchSize - 1) =
          documents.drop (s + ingestBatchSize) := by
        have h1 : (documents.drop s).drop ingestBatchSize =
            documents.drop (s + ingestBatchSize) := by
          rw [List.drop_drop]
        rw [hdrop] at h1
        rw [← h1]
        obtain ⟨c, rfl⟩ : ∃ c, ingestBatchSize = c + 1 :=
          ⟨ingestBatchSize - 1, by omega⟩
        simp
      have hsub : documents.length - s - ingestBatchSize =
          documents.length - (s + ingestBatchSize) := by omega
      have htail := ih (n - ingestBatchSize) (by omega) (s + ingestBatchSize)
        (by omega) (by rw [Nat.add_mod_right]; exact hmod)
      rw [ceil_div_step _ _ hb hm, hrange]
      simp only [List.map_cons]
      rw [hdrop, specBatches_cons _ hb, hdropb, henum]
      simp only [List.map_cons]
      rw [hsub, htail, Nat.add_div_right s hb]

theorem lineYields_eq_some {parse : String → Option SidecarRecord}
    {line : String} {r : SidecarRecord}
    (h : parse (pyStrip line) = some r) (cid : String) :
    lineYields parse line cid =
      (match lookupKey r.metadata "chunk_id" with
        | none => false
        | some c => c == cid && cid != "") := by
  unfold lineYields
  rw [h]

theorem lineYields_dump (parse : String → Option SidecarRecord)
    (dump : SidecarRecord → String) (c : Chunk) (cid : String)
    (hp : parse (pyStrip (dump (toRecord c))) = some (toRecord c)) :
    lineYields parse (dump (toRecord c)) cid = true ↔
      (lookupKey c.metadata "chunk_id" = some cid ∧ cid ≠ "") := by
  rw [lineYields_eq_some hp cid]
  cases hlk : lookupKey c.metadata "chunk_id" with
  | none =>
    rw [show lookupKey (toRecord c).metadata "chunk_id" = none from hlk]
    simp
  | some c' =>
    rw [show lookupKey (toRecord c).metadata "chunk_id" = some c' from hlk]
    simp only [Bool.and_eq_true, beq_iff_eq, bne_iff_ne, ne_eq, Option.some_inj]

theorem mem_insertNew (acc : List String) (c cid : String) :
    cid ∈ insertNew acc c ↔ cid = c ∨ cid ∈ acc := by
  unfold insertNew
  by_cases h : c ∈ acc
  · rw [if_pos h]
    constructor
    · exact Or.inr
    · rintro (rfl | hm)
      · exact h
      · exact hm
  · rw [if_neg h]
    simp [List.mem_append, or_comm]

theorem mem_scanStep (parse : String → Option SidecarRecord)
    (acc : List String) (line cid : String) :
    cid ∈ scanStep parse acc line ↔
      cid ∈ acc ∨ lineYields parse line cid = true := by
  unfold scanStep lineYields
  cases hp : parse (pyStrip line) with
  | none => simp
  | some r =>
    cases hlk : lookupKey r.metadata "chunk_id" with
    | none => simp [hlk]
    | some c =>
      by_cases hc : c = ""
      · subst hc
        by_cases hcid : cid = ""
        · simp [hlk, hcid]
        · have h2 : ("" == cid) = false := by
            simp only [beq_eq_false_iff_ne, ne_eq]
            exact fun hcc => hcid hcc.symm
          simp [hlk, h2]
      · by_cases hcid : cid = c
        · subst hcid
          simp [hlk, hc, mem_insertNew]
        · have h1 : (c == cid) = false := by
            simp only [beq_eq_false_iff_ne, ne_eq]
            exact fun hcc => hcid hcc.symm
          simp [hlk, hc, mem_insertNew, hcid, h1]

theorem mem_foldl_scanStep (parse : String → Option SidecarRecord) :
    ∀ (lines acc : List String) (cid : String),
      cid ∈ List.foldl (scanStep parse) acc lines ↔
        cid ∈ acc ∨ ∃ l ∈ lines, lineYields parse l cid = true := by
  intro lines
  induction lines with
  | nil => intro acc cid; simp
  | cons l ls ih =>
    intro acc cid
    rw [List.foldl_cons, ih, mem_scanStep]
    simp only [List.mem_cons]
    constructor
    · rintro ((h | h) | ⟨x, hx, hy⟩)
      · exact Or.inl h
      · exact Or.inr ⟨l, Or.inl rfl, h⟩
      · exact Or.inr ⟨x, Or.inr hx, hy⟩
    · rintro (h | ⟨x, (rfl | hx), hy⟩)
      · exact Or.inl (Or.inl h)
      · exact Or.inl (Or.inr hy)
      · exact Or.inr ⟨x, hx, hy⟩

theorem mem_scanLedger (parse : String → Option SidecarRecord)
    (lines : List String) (cid : String) :
    cid ∈ scanLedger parse lines ↔
      ∃ l ∈ lines, lineYields parse l cid = true := by
  rw [scanLedger, mem_foldl_scanStep]
  simp

theorem appendRecords_eq (dump : SidecarRecord → String) :
    ∀ (cs : List Chunk) (ls : List String),
      appendRecords dump cs ls = ls ++ cs.map (fun c => dump (toRecord c)) := by
  intro cs
  induction cs with
  | nil => intro ls; simp [appendRecords]
  | cons c rest ih =>
    intro ls
    rw [appendRecords, ih]
    simp

/-! Claims. -/

/-- The spec's own running example: four chunks of `data/a.pdf`, two on
page 1 and two on page 2. -/
def exampleChunks : List Chunk :=
  [⟨"chunk text 0", [("source", "data/a.pdf"), ("page", "1")]⟩,
   ⟨"chunk text 1", [("source", "data/a.pdf"), ("page", "1")]⟩,
   ⟨"chunk text 2", [("source", "data/a.pdf"), ("page", "2")]⟩,
   ⟨"chunk text 3", [("source", "data/a.pdf"), ("page", "2")]⟩]

/-- Claim C1: for every chunk sequence processed in order by
`calc_chunk_ids`, the assigned index starts at 0, increments by 1 for
each successive chunk whose `page_id` (normalized relative source `:`
page) equals the previous chunk's `page_id`, and resets to 0 whenever
the `page_id` differs, with `chunk_id = page_id ++ ":" ++ index`
(`idxSeq` is exactly that index recurrence, run over the list of page
ids, starting from no previous page id and counter 0). -/
theorem calc_chunk_ids_index_spec (isWindows : Bool) (base : String)
    (chunks : List Chunk) (h : ∀ c ∈ chunks, (c.getMeta "source").isSome) :
    (calc_chunk_ids isWindows base chunks).map (fun c => c.getMeta "chunk_id") =
      List.zipWith (fun p i => some (p ++ ":" ++ toString i))
        (chunks.map (pageIdOf isWindows base))
        (idxSeq none 0 (chunks.map (pageIdOf isWindows base))) :=
  calc_chunk_ids_go_chunk_ids isWindows base chunks none 0 h

/-- Witness for C1 at the spec's example sequence
`[(a.pdf,1),(a.pdf,1),(a.pdf,2),(a.pdf,2)]`: the indices are 0,1,0,1. -/
theorem calc_chunk_ids_index_spec_witness :
    (calc_chunk_ids false "data" exampleChunks).map (fun c => c.getMeta "chunk_id") =
      [some "a.pdf:1:0", some "a.pdf:1:1", some "a.pdf:2:0", some "a.pdf:2:1"] := by
  rw [calc_chunk_ids_index_spec false "data" exampleChunks (by decide)]
  decide

/-- Claim C7: `calc_chunk_ids` returns the sequence unchanged in content
and order — `Forall₂` forces equal length and relates equal positions;
`chunkFrame` states that the text content is unmodified and every
metadata key other than `chunk_id` is unchanged. -/
theorem calc_chunk_ids_frame (isWindows : Bool) (base : String)
    (chunks : List Chunk) :
    List.Forall₂ chunkFrame chunks (calc_chunk_ids isWindows base chunks) :=
  calc_chunk_ids_go_frame isWindows base chunks none 0

/-- Witness for C7 at a concrete chunk list. -/
theorem calc_chunk_ids_frame_witness :
    List.Forall₂ chunkFrame exampleChunks (calc_chunk_ids false "data" exampleChunks) :=
  calc_chunk_ids_frame false "data" exampleChunks

/-- A chunk whose source is spelled with a backslash separator. -/
def chunkBack : Chunk := ⟨"txt", [("source", "data\\a.pdf"), ("page", "1")]⟩

/-- The same chunk with the source spelled with a forward slash. -/
def chunkFwd : Chunk := ⟨"txt", [("source", "data/a.pdf"), ("page", "1")]⟩

/-- Counterexample to C8 as stated: on POSIX (`isWindows = false`) the
backslash is an ordinary filename character, so `data\a.pdf` and
`data/a.pdf` relative to base `data` get different chunk_ids
(`../data/a.pdf:1:0` vs `a.pdf:1:0`) — the normalization is not
separator-canonical on every platform. -/
theorem calc_chunk_ids_backslash_posix_differs :
    (calc_chunk_ids false "data" [chunkBack]).map (fun c => c.getMeta "chunk_id") =
        [some "../data/a.pdf:1:0"] ∧
      (calc_chunk_ids false "data" [chunkFwd]).map (fun c => c.getMeta "chunk_id") =
        [some "a.pdf:1:0"] ∧
      (calc_chunk_ids false "data" [chunkBack]).map (fun c => c.getMeta "chunk_id") ≠
        (calc_chunk_ids false "data" [chunkFwd]).map (fun c => c.getMeta "chunk_id") := by
  refine ⟨by decide, by decide, by decide⟩

/-- Claim C8 as amended: under Windows path semantics
(`isWindows = true`), a source spelled with backslash separators and the
same source with every backslash replaced by a forward slash are
assigned identical chunk_ids by `calc_chunk_ids`, for any base
directory, page, content and further metadata. -/
theorem calc_chunk_ids_backslash_windows (base content page s : String)
    (md : List (String × String)) :
    (calc_chunk_ids true base
        [⟨content, ("source", s) :: ("page", page) :: md⟩]).map
        (fun c => c.getMeta "chunk_id") =
      (calc_chunk_ids true base
          [⟨content, ("source", replaceBackslash s) :: ("page", page) :: md⟩]).map
        (fun c => c.getMeta "chunk_id") := by
  have h1 : (⟨content, ("source", s) :: ("page", page) :: md⟩ : Chunk).getMeta
      "source" = some s := rfl
  have h2 : (⟨content, ("source", replaceBackslash s) :: ("page", page) :: md⟩ :
      Chunk).getMeta "source" = some (replaceBackslash s) := rfl
  have hp1 : (⟨content, ("source", s) :: ("page", page) :: md⟩ : Chunk).getMeta
      "page" = some page := rfl
  have hp2 : (⟨content, ("source", replaceBackslash s) :: ("page", page) :: md⟩ :
      Chunk).getMeta "page" = some page := rfl
  have hpid : pageIdOf true base ⟨content, ("source", s) :: ("page", page) :: md⟩ =
      pageIdOf true base
        ⟨content, ("source", replaceBackslash s) :: ("page", page) :: md⟩ := by
    unfold pageIdOf
    rw [h1, h2, hp1, hp2]
    simp only [Option.getD_some]
    rw [norm_rel_source_windows_replace]
  simp only [calc_chunk_ids, calc_chunk_ids_go, h1, h2, List.map_cons, List.map_nil]
  rw [getMeta_setMeta_same, getMeta_setMeta_same, hpid]

/-- Claim C9: the chunk-id assignment is a deterministic function of the
input sequence and base directory with no dependence on hidden state:
any two runs whose inputs agree on the id-relevant metadata (`source`
and `page`, position by position — in particular two runs on the very
same input) produce identical `chunk_id` values position by position. -/
theorem calc_chunk_ids_deterministic (isWindows : Bool) (base : String)
    (cs1 cs2 : List Chunk)
    (hsrc : ∀ c ∈ cs1, (c.getMeta "source").isSome)
    (hagree : List.Forall₂
      (fun c d => c.getMeta "source" = d.getMeta "source" ∧
        c.getMeta "page" = d.getMeta "page") cs1 cs2) :
    (calc_chunk_ids isWindows base cs1).map (fun c => c.getMeta "chunk_id") =
      (calc_chunk_ids isWindows base cs2).map (fun c => c.getMeta "chunk_id") := by
  rw [calc_chunk_ids, calc_chunk_ids,
    calc_chunk_ids_go_chunk_ids isWindows base cs1 none 0 hsrc,
    calc_chunk_ids_go_chunk_ids isWindows base cs2 none 0
      (sources_isSome_of_agree hagree hsrc),
    map_pageIdOf_of_agree isWindows base hagree]

/-- A run input for C9. -/
def detRunA : List Chunk := [⟨"alpha", [("source", "data/a.pdf"), ("page", "1")]⟩]

/-- A second run input agreeing with `detRunA` on `source` and `page`. -/
def detRunB : List Chunk :=
  [⟨"beta", [("source", "data/a.pdf"), ("page", "1"), ("extra", "zzz")]⟩]

/-- Witness for C9 at two concrete runs. -/
theorem calc_chunk_ids_deterministic_witness :
    (calc_chunk_ids false "data" detRunA).map (fun c => c.getMeta "chunk_id") =
      (calc_chunk_ids false "data" detRunB).map (fun c => c.getMeta "chunk_id") :=
  calc_chunk_ids_deterministic false "data" detRunA detRunB (by decide)
    (List.Forall₂.cons ⟨by decide, by decide⟩ List.Forall₂.nil)

/-- Claim C2: with a total tokenizer, `filter_chunks` keeps exactly the
chunks whose token count on the stripped content satisfies the strict
inequalities `lower_limit < token_count < upper_limit`; a count equal to
either bound fails the strict test and is excluded. -/
theorem filter_chunks_strict_window (numTokens : String → Int)
    (lowerLimit upperLimit : Int) (chunks : List Chunk) :
    filter_chunks (fun s => some (numTokens s)) lowerLimit upperLimit chunks =
      chunks.filter (fun c =>
        decide (lowerLimit < numTokens (pyStrip c.page_content) ∧
          numTokens (pyStrip c.page_content) < upperLimit)) := by
  rw [filter_chunks, filter_chunks_run_total]
  rfl

/-- Claim C4: if the tokenizer raises on any chunk (in particular on
every chunk), `filter_chunks` returns the original unfiltered input list
— fail-open, not fail-closed. -/
theorem filter_chunks_fail_open (numTokens : String → Option Int)
    (lowerLimit upperLimit : Int) (chunks : List Chunk)
    (h : ∃ c ∈ chunks, numTokens (pyStrip c.page_content) = none) :
    filter_chunks numTokens lowerLimit upperLimit chunks = chunks := by
  rw [filter_chunks, filter_chunks_run_none numTokens lowerLimit upperLimit chunks h]
  rfl

/-- Witness for C4: a tokenizer raising on every input leaves the list
untouched. -/
theorem filter_chunks_fail_open_witness :
    filter_chunks (fun _ => none) 10 20 exampleChunks = exampleChunks :=
  filter_chunks_fail_open (fun _ => none) 10 20 exampleChunks
    ⟨⟨"chunk text 0", [("source", "data/a.pdf"), ("page", "1")]⟩, by decide, rfl⟩

/-- Claim C10: when the token filter completes without failure, the
returned list is a subsequence of the input — every kept chunk is an
input chunk, kept in input order, with nothing duplicated, inserted or
modified. -/
theorem filter_chunks_sublist (numTokens : String → Option Int)
    (lowerLimit upperLimit : Int) (chunks kept : List Chunk)
    (h : filter_chunks_run numTokens lowerLimit upperLimit chunks = some kept) :
    (filter_chunks numTokens lowerLimit upperLimit chunks).Sublist chunks := by
  rw [filter_chunks, h]
  exact filter_chunks_run_sublist numTokens lowerLimit upperLimit chunks kept h

/-- A concrete tokenizer: the character count of its input. -/
def lenTokens (s : String) : Option Int := some ((s.length : Int))

/-- Witness for C10 at a concrete filter run. -/
theorem filter_chunks_sublist_witness :
    (filter_chunks lenTokens 1 3 [⟨"ab", []⟩, ⟨"abcdef", []⟩]).Sublist
      [⟨"ab", []⟩, ⟨"abcdef", []⟩] :=
  filter_chunks_sublist lenTokens 1 3 [⟨"ab", []⟩, ⟨"abcdef", []⟩]
    [⟨"ab", []⟩] (by decide)

/-- Claim C3: for a positive batch size, `process_in_batches` attempts
the ingestion function exactly once per contiguous batch, in order (the
last batch may be shorter), logging each attempt under its sequence
index; the trace is a pure enumeration of the batches, independent of
which calls fail, so a failing batch never prevents the remaining
batches from being attempted and no failure escapes the loop. -/
theorem process_in_batches_trace (documents : List Chunk)
    (ingestBatchSize : Nat) (ingest : List Chunk → Bool)
    (hb : 0 < ingestBatchSize) :
    process_in_batches documents ingestBatchSize ingest =
      ((specBatches ingestBatchSize documents).enum).map
        (fun p => (p.1, ingest p.2)) := by
  have h := process_in_batches_go ingestBatchSize hb ingest documents
    documents.length 0 (by omega) (Nat.zero_mod _)
  simp only [Nat.sub_zero, List.drop_zero, Nat.zero_div] at h
  rw [process_in_batches,
    show (specBatches ingestBatchSize documents).enum =
      (specBatches ingestBatchSize documents).enumFrom 0 from rfl]
  exact h

/-- Five documents for the C3 witness. -/
def docsFive : List Chunk :=
  [⟨"d0", []⟩, ⟨"d1", []⟩, ⟨"d2", []⟩, ⟨"d3", []⟩, ⟨"d4", []⟩]

/-- An ingestion function that raises exactly on the second batch
(`[d2, d3]`) of `docsFive` at batch size 2. -/
def ingestFailSecond (batch : List Chunk) : Bool :=
  !(batch.map (fun c => c.page_content) == ["d2", "d3"])

/-- Witness for C3: 5 documents, batch size 2, failure only on the
second batch — all 3 batches are attempted, exactly 2 succeed. -/
theorem process_in_batches_trace_witness :
    process_in_batches docsFive 2 ingestFailSecond =
      [(0, true), (1, false), (2, true)] := by
  rw [process_in_batches_trace docsFive 2 ingestFailSecond (by decide)]
  rw [show (2 : Nat) = 1 + 1 from rfl]
  simp only [docsFive, specBatches_succ, List.drop_succ_cons, List.drop_zero,
    List.drop_nil, specBatches_nil]
  decide

/-- A JSON parser under which the line `x` decodes to a record whose
`chunk_id` is the empty string (a real JSON line with this decoding is
`{"content": "", "metadata": \x7b"chunk_id": ""\x7d}`). -/
def parseEmptyId (s : String) : Option SidecarRecord :=
  if s = "x" then some ⟨"", [("chunk_id", "")]⟩ else none

/-- Counterexample to C5 as stated: the single line `x` is validly
parsed and its record carries `chunk_id = ""`, yet the returned set does
not contain `""` — the source's truthiness guard `if chunk_id:` also
drops a present-but-empty `chunk_id`, which the claim's "adds the
chunk_id of each validly parsed record" forbids. -/
theorem load_existing_empty_chunk_id_dropped :
    parseEmptyId (pyStrip "x") = some ⟨"", [("chunk_id", "")]⟩ ∧
      lookupKey [("chunk_id", "")] "chunk_id" = some "" ∧
      "" ∉ load_existing_chunks_metadata parseEmptyId (some ["x"]) := by
  refine ⟨by decide, by decide, by decide⟩

/-- Claim C5 as amended: `load_existing_chunks_metadata` returns the
empty set when the file does not exist; otherwise a chunk id is in the
returned set exactly when some line of the file parses to a record
whose metadata carries that id as a truthy (present and non-empty)
`chunk_id` — lines that fail to parse are skipped silently and later
lines still contribute. -/
theorem load_existing_chunks_metadata_spec (parse : String → Option SidecarRecord)
    (lines : List String) :
    load_existing_chunks_metadata parse none = [] ∧
      ∀ cid, (cid ∈ load_existing_chunks_metadata parse (some lines) ↔
        ∃ l ∈ lines, lineYields parse l cid = true) := by
  refine ⟨rfl, fun cid => ?_⟩
  simp only [load_existing_chunks_metadata]
  exact mem_scanLedger parse lines cid

/-- A parser decoding the line `rec1` to a record with chunk id `k1`
and failing on every other line. -/
def parseOneGood (s : String) : Option SidecarRecord :=
  if s = "rec1" then some ⟨"c1", [("chunk_id", "k1")]⟩ else none

/-- Witness for the amended C5: a good line among malformed ones
contributes its chunk id. -/
theorem load_existing_chunks_metadata_spec_witness :
    "k1" ∈ load_existing_chunks_metadata parseOneGood (some ["junk", "rec1"]) :=
  ((load_existing_chunks_metadata_spec parseOneGood ["junk", "rec1"]).2 "k1").mpr
    ⟨"rec1", by decide, by decide⟩

/-- A serializer writing every record as the line `L1`. -/
def dumpL (_ : SidecarRecord) : String := "L1"

/-- A parser decoding `L1` back to the record with empty `chunk_id`. -/
def parseL (s : String) : Option SidecarRecord :=
  if s = "L1" then some ⟨"body", [("chunk_id", "")]⟩ else none

/-- Counterexample to C6 as stated: appending a chunk whose `chunk_id`
is the empty string writes its record to the file, and the record
re-parses correctly, yet the returned rebuilt ledger set does not
contain that newly appended chunk's `chunk_id` — the re-scan applies the
same truthiness guard as the ledger load. -/
theorem save_processed_empty_chunk_id_dropped :
    (save_processed_chunks_metadata dumpL parseL
        [⟨"body", [("chunk_id", "")]⟩] none).1 = ["L1"] ∧
      parseL (pyStrip (dumpL (toRecord ⟨"body", [("chunk_id", "")]⟩))) =
        some (toRecord ⟨"body", [("chunk_id", "")]⟩) ∧
      "" ∉ (save_processed_chunks_metadata dumpL parseL
        [⟨"body", [("chunk_id", "")]⟩] none).2 := by
  refine ⟨by decide, by decide, by decide⟩

/-- Claim C6 as amended: provided the JSON codec round-trips the
appended records, `save_processed_chunks_metadata` (i) creates the file
when absent and appends exactly one record per chunk, in chunk order,
after the existing lines without rewriting them, and (ii) returns the
ledger rebuilt from the whole resulting file, which contains exactly the
previously persisted chunk ids together with the truthy (present,
non-empty) `chunk_id`s of the appended chunks. -/
theorem save_processed_chunks_metadata_spec (dump : SidecarRecord → String)
    (parse : String → Option SidecarRecord) (chunks : List Chunk)
    (file : Option (List String))
    (h : ∀ c ∈ chunks, parse (pyStrip (dump (toRecord c))) = some (toRecord c)) :
    (save_processed_chunks_metadata dump parse chunks file).1 =
        file.getD [] ++ chunks.map (fun c => dump (toRecord c)) ∧
      ∀ cid, (cid ∈ (save_processed_chunks_metadata dump parse chunks file).2 ↔
        (cid ∈ load_existing_chunks_metadata parse (some (file.getD [])) ∨
          ∃ c ∈ chunks, (lookupKey c.metadata "chunk_id" = some cid ∧ cid ≠ ""))) := by
  constructor
  · simp only [save_processed_chunks_metadata]
    exact appendRecords_eq dump chunks _
  · intro cid
    simp only [save_processed_chunks_metadata, load_existing_chunks_metadata]
    rw [appendRecords_eq, mem_scanLedger, mem_scanLedger]
    constructor
    · rintro ⟨l, hl, hy⟩
      rcases List.mem_append.mp hl with hold | hnew
      · exact Or.inl ⟨l, hold, hy⟩
      · obtain ⟨c, hc, rfl⟩ := List.mem_map.mp hnew
        exact Or.inr ⟨c, hc, (lineYields_dump parse dump c cid (h c hc)).mp hy⟩
    · rintro (⟨l, hl, hy⟩ | ⟨c, hc, hlk, hne⟩)
      · exact ⟨l, List.mem_append_left _ hl, hy⟩
      · exact ⟨dump (toRecord c),
          List.mem_append_right _ (List.mem_map.mpr ⟨c, hc, rfl⟩),
          (lineYields_dump parse dump c cid (h c hc)).mpr ⟨hlk, hne⟩⟩

/-- A chunk with chunk id `k1` for the C6 witness. -/
def chunkKOne : Chunk := ⟨"hello", [("chunk_id", "k1")]⟩

/-- A serializer writing every record as the line `NEW`. -/
def dumpK (_ : SidecarRecord) : String := "NEW"

/-- A parser decoding the appended line `NEW` back to `chunkKOne`'s
record and the pre-existing line `OLD` to a record with chunk id
`k0`. -/
def parseK (s : String) : Option SidecarRecord :=
  if s = "NEW" then some ⟨"hello", [("chunk_id", "k1")]⟩
  else if s = "OLD" then some ⟨"old", [("chunk_id", "k0")]⟩ else none

/-- Witness for the amended C6: the appended line follows the existing
one, and the returned ledger contains the appended chunk's id. -/
theorem save_processed_chunks_metadata_spec_witness :
    (save_processed_chunks_metadata dumpK parseK [chunkKOne] (some ["OLD"])).1 =
        ["OLD", "NEW"] ∧
      "k1" ∈ (save_processed_chunks_metadata dumpK parseK [chunkKOne]
        (some ["OLD"])).2 := by
  have h := save_processed_chunks_metadata_spec dumpK parseK [chunkKOne]
    (some ["OLD"]) (by decide)
  refine ⟨by rw [h.1]; decide, ?_⟩
  exact (h.2 "k1").mpr (Or.inr ⟨chunkKOne, by decide, by decide, by decide⟩)

end RagDemo
